import Mathlib

/-!
Verification of the MaestroCat event/metrics/interruption core against its
specification.

The Python sources are shallowly embedded:

* `core/processors/event_emitter.py` (`EventEmitter`) — `EmitterState`,
  `subscribe`, `emit`, `get_event_history`;
* `core/processors/interruption.py` (`InterruptionHandler`) — `IState`,
  `iProcessFrame`, `handleInterruption`;
* `core/processors/interruption.py` (`MetricsCollector`) — `MetricsState`,
  `mcProcessFrame`;
* `core/pipeline/extension_points.py` (`ExtensionHandler`/`ExtensionManager`)
  — `ExtensionHandler.execute`, `execute_hooks`;
* `core/modules/registry.py` (`ModuleRegistry.get_load_order`) — `visit`,
  `runDeps`, `topLoop`, `get_load_order`.

Machine floats (`time.time()` values, durations, latencies) are modelled as
rationals; clock readings are passed in as explicit `now` arguments.
Python callables (subscriber callbacks, extension handlers) are modelled by
their observable behaviour: an identifier plus a function giving, for each
input, whether the call raises (respectively its outcome).
-/

/-! ### List helpers: suffix extraction (Python `deque(maxlen=…)` and `xs[-n:]`) -/

/-- Last `n` elements of a list (the list itself when it is shorter).
This is both the retention behaviour of `collections.deque(maxlen=n)` after an
append and the Python slice `xs[-n:]` for `n > 0`. -/
def takeLast {α : Type} (n : Nat) (l : List α) : List α :=
  l.drop (l.length - n)

theorem takeLast_length {α : Type} (n : Nat) (l : List α) :
    (takeLast n l).length = min n l.length := by
  rw [takeLast, List.length_drop, Nat.min_def]
  split <;> omega

theorem takeLast_eq_self {α : Type} {n : Nat} {l : List α} (h : l.length ≤ n) :
    takeLast n l = l := by
  unfold takeLast
  have h0 : l.length - n = 0 := by omega
  rw [h0, List.drop_zero]

theorem takeLast_sublist {α : Type} (n : Nat) (l : List α) :
    (takeLast n l).Sublist l :=
  List.drop_sublist _ _

/-- Appending to a buffer already trimmed to `n` and trimming again is the same
as trimming the untrimmed concatenation: the deque never forgets elements that
would have survived anyway. -/
theorem takeLast_append_absorb {α : Type} (n : Nat) (l m : List α) :
    takeLast n (takeLast n l ++ m) = takeLast n (l ++ m) := by
  rcases le_or_lt l.length n with h | h
  · rw [takeLast_eq_self h]
  · unfold takeLast
    have hlen : (List.drop (l.length - n) l).length = n := by
      rw [List.length_drop]; omega
    rw [List.length_append, List.length_append, hlen]
    have h1 : n + m.length - n = m.length := by omega
    have h2 : l.length + m.length - n = (l.length - n) + m.length := by omega
    rw [h1, h2, ← List.drop_drop]
    have h3 : l.length - n ≤ l.length := by omega
    rw [List.drop_append_of_le_length h3]

/-! ### String helpers

Python's `str.endswith(p)` and `name.replace(p, "")` do not kernel-reduce
through Lean's built-in `String` functions, so they are modelled on the
underlying character lists.  For the marker names the metrics collector
handles (`stt_start`, `llm_end`, …) the suffix occurs exactly once, so
`replace(suffix, "")` coincides with dropping the suffix. -/

def strEndsWith (s p : String) : Bool := p.data.isSuffixOf s.data

def strDropRight (s : String) (n : Nat) : String := ⟨s.data.take (s.data.length - n)⟩

/-! ### Python truthiness

`if x:` on an optional float/int treats both `None` and `0` as false.  The
embedding carries optional numbers as `Option ℚ` / `Option Nat` and uses these
truthiness tests where the source branches on bare values. -/

def truthyRat : Option ℚ → Bool
  | none => false
  | some v => decide (v ≠ 0)

def truthyNat : Option Nat → Bool
  | none => false
  | some n => decide (n ≠ 0)

def truthyStr : Option String → Bool
  | none => false
  | some s => decide (s ≠ "")

/-! ## EventEmitter (`core/processors/event_emitter.py`)

`Event` is the dict built in `EventEmitter.emit`; `α` is the opaque payload
type of the `data` field.  A subscriber callback is modelled by a numeric
identity `cid` and a predicate `raises` describing on which events the call
raises an exception. -/

structure Event (α : Type) where
  type : String
  data : α
  timestamp : ℚ
  id : Nat
deriving Repr

structure Callback (α : Type) where
  cid : Nat
  raises : Event α → Bool

/-- State of one `EventEmitter` instance.  The registration sequence is kept
as one list of (event type, callback) pairs; the per-type lists of the
Python `defaultdict(list)` are recovered by `subscribersFor`. -/
structure EmitterState (α : Type) where
  buffer_size : Nat
  subscribers : List (String × Callback α)
  event_buffer : List (Event α)
  event_count : Nat

def initEmitter (α : Type) (buffer_size : Nat) : EmitterState α :=
  ⟨buffer_size, [], [], 0⟩

/-- `EventEmitter.subscribe`: append the callback to the list for this type. -/
def subscribe {α : Type} (s : EmitterState α) (event_type : String) (cb : Callback α) :
    EmitterState α :=
  { s with subscribers := s.subscribers ++ [(event_type, cb)] }

/-- The list `self._subscribers[event_type]`, in registration order. -/
def subscribersFor {α : Type} (s : EmitterState α) (event_type : String) : List (Callback α) :=
  (s.subscribers.filter (fun p => p.1 == event_type)).map Prod.snd

/-- The subscriber loop of `EventEmitter.emit`: each callback in turn is
invoked inside `try: … except Exception: logger.error(…)`, so a raising
callback is recorded and the loop continues with the next one.  The returned
log lists `(cid, raised?)` in invocation order. -/
def invokeCallbacks {α : Type} : List (Callback α) → Event α → List (Nat × Bool)
  | [], _ => []
  | cb :: rest, e =>
    match (if cb.raises e then Except.error "callback raised" else Except.ok ()
            : Except String Unit) with
    | Except.error _ => (cb.cid, true) :: invokeCallbacks rest e
    | Except.ok _ => (cb.cid, false) :: invokeCallbacks rest e

/-- `EventEmitter.emit`: build the event dict (with the current counter value
as `id` and the clock reading `now` as `timestamp`), bump the counter, append
to the bounded ring buffer, then call every subscriber registered for exactly
`event_type`.  Returns the new state and the invocation log. -/
def emit {α : Type} (s : EmitterState α) (event_type : String) (d : α) (now : ℚ) :
    EmitterState α × List (Nat × Bool) :=
  let event : Event α := ⟨event_type, d, now, s.event_count⟩
  ({ s with
      event_count := s.event_count + 1,
      event_buffer := takeLast s.buffer_size (s.event_buffer ++ [event]) },
   invokeCallbacks (subscribersFor s event_type) event)

/-- `EventEmitter.get_event_history`: snapshot the buffer, then apply the
type, timestamp and limit filters — each one only when its argument is truthy
(`if event_type:` / `if since_timestamp:` / `if limit:`). -/
def get_event_history {α : Type} (s : EmitterState α) (event_type : Option String)
    (since_timestamp : Option ℚ) (limit : Option Nat) : List (Event α) :=
  let events := s.event_buffer
  let events :=
    if truthyStr event_type then events.filter (fun e => e.type == event_type.getD "")
    else events
  let events :=
    if truthyRat since_timestamp then
      events.filter (fun e => decide (since_timestamp.getD 0 < e.timestamp))
    else events
  if truthyNat limit then takeLast (limit.getD 0) events else events

/-- Fold a sequence of `emit` calls (type, payload, clock reading). -/
def emitMany {α : Type} (s : EmitterState α) (inputs : List (String × α × ℚ)) :
    EmitterState α :=
  inputs.foldl (fun s i => (emit s i.1 i.2.1 i.2.2).1) s

/-- The events a sequence of `emit` calls creates when the counter starts at
`start`: ids are consecutive, timestamps are the given clock readings. -/
def mkEvents {α : Type} (start : Nat) : List (String × α × ℚ) → List (Event α)
  | [] => []
  | (t, d, ts) :: rest => ⟨t, d, ts, start⟩ :: mkEvents (start + 1) rest

/-! ### EventEmitter lemmas -/

theorem invokeCallbacks_eq_map {α : Type} (cbs : List (Callback α)) (e : Event α) :
    invokeCallbacks cbs e = cbs.map (fun cb => (cb.cid, cb.raises e)) := by
  induction cbs with
  | nil => rfl
  | cons cb rest ih =>
    cases hcb : cb.raises e <;> simp [invokeCallbacks, hcb, ih]

theorem emit_subscribers {α : Type} (s : EmitterState α) (t : String) (d : α) (now : ℚ) :
    (emit s t d now).1.subscribers = s.subscribers := rfl

theorem emit_buffer_size {α : Type} (s : EmitterState α) (t : String) (d : α) (now : ℚ) :
    (emit s t d now).1.buffer_size = s.buffer_size := rfl

theorem emit_event_count {α : Type} (s : EmitterState α) (t : String) (d : α) (now : ℚ) :
    (emit s t d now).1.event_count = s.event_count + 1 := rfl

theorem emitMany_nil {α : Type} (s : EmitterState α) : emitMany s [] = s := rfl

theorem emitMany_cons {α : Type} (s : EmitterState α) (i : String × α × ℚ)
    (rest : List (String × α × ℚ)) :
    emitMany s (i :: rest) = emitMany (emit s i.1 i.2.1 i.2.2).1 rest := rfl

theorem emitMany_buffer_size {α : Type} (inputs : List (String × α × ℚ)) (s : EmitterState α) :
    (emitMany s inputs).buffer_size = s.buffer_size := by
  induction inputs generalizing s with
  | nil => rfl
  | cons i rest ih => rw [emitMany_cons, ih, emit_buffer_size]

theorem emitMany_event_count {α : Type} (inputs : List (String × α × ℚ)) (s : EmitterState α) :
    (emitMany s inputs).event_count = s.event_count + inputs.length := by
  induction inputs generalizing s with
  | nil => rfl
  | cons i rest ih =>
    rw [emitMany_cons, ih, emit_event_count, List.length_cons]
    omega

theorem mkEvents_length {α : Type} (start : Nat) (inputs : List (String × α × ℚ)) :
    (mkEvents start inputs).length = inputs.length := by
  induction inputs generalizing start with
  | nil => rfl
  | cons i rest ih =>
    obtain ⟨t, d, ts⟩ := i
    simp [mkEvents, ih]

theorem mkEvents_map_id {α : Type} (start : Nat) (inputs : List (String × α × ℚ)) :
    (mkEvents start inputs).map (fun e => e.id) = List.range' start inputs.length := by
  induction inputs generalizing start with
  | nil => rfl
  | cons i rest ih =>
    obtain ⟨t, d, ts⟩ := i
    simp [mkEvents, ih, List.range'_succ]

theorem mkEvents_map_timestamp {α : Type} (start : Nat) (inputs : List (String × α × ℚ)) :
    (mkEvents start inputs).map (fun e => e.timestamp) = inputs.map (fun i => i.2.2) := by
  induction inputs generalizing start with
  | nil => rfl
  | cons i rest ih =>
    obtain ⟨t, d, ts⟩ := i
    simp [mkEvents, ih]

/-- Running a sequence of emissions leaves exactly the last `buffer_size`
created events in the ring buffer. -/
theorem emitMany_buffer {α : Type} (inputs : List (String × α × ℚ)) (s : EmitterState α)
    (h : s.event_buffer.length ≤ s.buffer_size) :
    (emitMany s inputs).event_buffer
      = takeLast s.buffer_size (s.event_buffer ++ mkEvents s.event_count inputs) := by
  induction inputs generalizing s with
  | nil =>
    rw [emitMany_nil]
    show s.event_buffer = takeLast s.buffer_size (s.event_buffer ++ [])
    rw [List.append_nil, takeLast_eq_self h]
  | cons i rest ih =>
    obtain ⟨t, d, ts⟩ := i
    rw [emitMany_cons]
    have hlen : (emit s t d ts).1.event_buffer.length ≤ (emit s t d ts).1.buffer_size := by
      show (takeLast s.buffer_size _).length ≤ s.buffer_size
      rw [takeLast_length]
      omega
    rw [ih _ hlen, emit_buffer_size, emit_event_count]
    show takeLast s.buffer_size
        (takeLast s.buffer_size (s.event_buffer ++ [⟨t, d, ts, s.event_count⟩])
          ++ mkEvents (s.event_count + 1) rest) = _
    rw [takeLast_append_absorb, List.append_assoc]
    rfl

/-! ### EventEmitter claim theorems -/

/-- Claim C1 (code bug): the spec promises that a callback registered with the
wildcard type `"*"` is invoked by `emit` for every emitted event.  The code's
`emit` only iterates over `self._subscribers[event_type]`, so a `"*"`
subscription — exactly what `ModuleLoader.load_module` and the debug UI create
— is never invoked for an event of any other type.  This theorem evaluates the
embedded code at the failing input: after `subscribe("*", cb)`, emitting a
`"pipeline_started"` event invokes no callback at all, although the
subscription is present. -/
theorem wildcard_subscriber_never_invoked :
    subscribersFor (subscribe (initEmitter Nat 1000) "*" ⟨7, fun _ => false⟩) "*"
        = [⟨7, fun _ => false⟩]
    ∧ (emit (subscribe (initEmitter Nat 1000) "*" ⟨7, fun _ => false⟩)
        "pipeline_started" 0 0).2 = [] := by
  exact ⟨rfl, rfl⟩

/-- Claim C3: a raising subscriber is caught and does not stop delivery.  The
invocation log of every `emit` is exactly the list of matching subscribers, in
registration order, regardless of which of them raise, and `emit` itself
returns normally with the subscriber list unchanged.  In particular with
subscriber A (id 1) raising on every call and B (id 2) never raising, both of
two successive events of the subscribed type are delivered to A and then B. -/
theorem subscriber_isolation :
    (∀ (α : Type) (s : EmitterState α) (t : String) (d : α) (now : ℚ),
        (emit s t d now).2
          = (subscribersFor s t).map (fun cb => (cb.cid, cb.raises ⟨t, d, now, s.event_count⟩)))
    ∧ (∀ (α : Type) (s : EmitterState α) (t : String) (d : α) (now : ℚ),
        (emit s t d now).1.subscribers = s.subscribers)
    ∧ (emit (subscribe (subscribe (initEmitter Nat 10) "evt" ⟨1, fun _ => true⟩) "evt"
        ⟨2, fun _ => false⟩) "evt" 0 0).2 = [(1, true), (2, false)]
    ∧ (emit (emit (subscribe (subscribe (initEmitter Nat 10) "evt" ⟨1, fun _ => true⟩) "evt"
        ⟨2, fun _ => false⟩) "evt" 0 0).1 "evt" 5 1).2 = [(1, true), (2, false)] := by
  refine ⟨?_, ?_, rfl, rfl⟩
  · intro α s t d now
    exact invokeCallbacks_eq_map _ _
  · intro α s t d now
    rfl

/-- Claim C7: after more emissions than the ring-buffer capacity, the
unfiltered history is exactly the `buffer_size` most recently emitted events
(`mkEvents 0 inputs` lists all created events in emission order; `takeLast`
keeps the newest ones, i.e. the oldest are evicted first). -/
theorem ring_buffer_bound (α : Type) (bufsize : Nat) (inputs : List (String × α × ℚ))
    (h : bufsize < inputs.length) :
    get_event_history (emitMany (initEmitter α bufsize) inputs) none none none
        = takeLast bufsize (mkEvents 0 inputs)
    ∧ (get_event_history (emitMany (initEmitter α bufsize) inputs) none none none).length
        = bufsize := by
  have hhist : ∀ s : EmitterState α, get_event_history s none none none = s.event_buffer := by
    intro s
    simp [get_event_history, truthyStr, truthyRat, truthyNat]
  have hbuf : (emitMany (initEmitter α bufsize) inputs).event_buffer
      = takeLast bufsize (mkEvents 0 inputs) := by
    have := emitMany_buffer inputs (initEmitter α bufsize) (by simp [initEmitter])
    simpa [initEmitter] using this
  refine ⟨by rw [hhist, hbuf], ?_⟩
  rw [hhist, hbuf, takeLast_length, mkEvents_length]
  omega

/-- Witness for C7 at a concrete input: capacity 2, three emissions. -/
theorem ring_buffer_bound_witness :
    get_event_history
        (emitMany (initEmitter Nat 2) [("a", 0, 0), ("b", 0, 1), ("c", 0, 2)]) none none none
        = takeLast 2 (mkEvents 0 [("a", 0, 0), ("b", 0, 1), ("c", 0, 2)])
    ∧ (get_event_history
        (emitMany (initEmitter Nat 2) [("a", 0, 0), ("b", 0, 1), ("c", 0, 2)])
        none none none).length = 2 :=
  ring_buffer_bound Nat 2 [("a", 0, 0), ("b", 0, 1), ("c", 0, 2)] (by decide)

/-- Claim C8: event ids are the consecutive counter values starting at 0, so
the stored events carry strictly increasing ids; and when the clock readings
supplied to the successive `emit` calls are non-decreasing, the stored
timestamps are non-decreasing as well. -/
theorem sequence_monotonicity (α : Type) (bufsize : Nat) (inputs : List (String × α × ℚ))
    (h : List.Chain' (· ≤ ·) (inputs.map (fun i => i.2.2))) :
    (mkEvents 0 inputs).map (fun e => e.id) = List.range inputs.length
    ∧ (emitMany (initEmitter α bufsize) inputs).event_count = inputs.length
    ∧ (emitMany (initEmitter α bufsize) inputs).event_buffer
        = takeLast bufsize (mkEvents 0 inputs)
    ∧ List.Pairwise (fun e e' => e.id < e'.id)
        (emitMany (initEmitter α bufsize) inputs).event_buffer
    ∧ List.Pairwise (fun e e' => e.timestamp ≤ e'.timestamp)
        (emitMany (initEmitter α bufsize) inputs).event_buffer := by
  have hbuf : (emitMany (initEmitter α bufsize) inputs).event_buffer
      = takeLast bufsize (mkEvents 0 inputs) := by
    have := emitMany_buffer inputs (initEmitter α bufsize) (by simp [initEmitter])
    simpa [initEmitter] using this
  have hids : List.Pairwise (fun (e e' : Event α) => e.id < e'.id) (mkEvents 0 inputs) := by
    rw [← List.pairwise_map (f := fun e : Event α => e.id)]
    rw [mkEvents_map_id]
    exact List.pairwise_lt_range' 0 inputs.length
  have hts : List.Pairwise (fun (e e' : Event α) => e.timestamp ≤ e'.timestamp)
      (mkEvents 0 inputs) := by
    rw [← List.pairwise_map (f := fun e : Event α => e.timestamp)]
    rw [mkEvents_map_timestamp]
    exact List.chain'_iff_pairwise.mp h
  refine ⟨?_, ?_, hbuf, ?_, ?_⟩
  · rw [mkEvents_map_id, List.range_eq_range']
  · rw [emitMany_event_count]
    simp [initEmitter]
  · rw [hbuf]
    exact hids.sublist (takeLast_sublist _ _)
  · rw [hbuf]
    exact hts.sublist (takeLast_sublist _ _)

/-- Witness for C8 at a concrete input: two emissions with clock readings 0
then 1. -/
theorem sequence_monotonicity_witness :
    (mkEvents 0 [("a", (0 : Nat), (0 : ℚ)), ("b", 0, 1)]).map (fun e => e.id)
        = List.range 2
    ∧ (emitMany (initEmitter Nat 3) [("a", 0, 0), ("b", 0, 1)]).event_count = 2
    ∧ (emitMany (initEmitter Nat 3) [("a", 0, 0), ("b", 0, 1)]).event_buffer
        = takeLast 3 (mkEvents 0 [("a", 0, 0), ("b", 0, 1)])
    ∧ List.Pairwise (fun e e' => e.id < e'.id)
        (emitMany (initEmitter Nat 3) [("a", 0, 0), ("b", 0, 1)]).event_buffer
    ∧ List.Pairwise (fun e e' => e.timestamp ≤ e'.timestamp)
        (emitMany (initEmitter Nat 3) [("a", 0, 0), ("b", 0, 1)]).event_buffer :=
  sequence_monotonicity Nat 3 [("a", 0, 0), ("b", 0, 1)] (by
    simp [List.chain'_cons])

/-- Claim C10: in `get_event_history` a falsy filter argument is treated as
absent.  `since_timestamp=0` and `limit=0` each disable their filter (so
`limit=0` returns all matching events, not zero events), and when the
timestamp filter does apply it keeps exactly the events with timestamp
strictly greater than `since_timestamp`. -/
theorem falsy_filter_semantics :
    (∀ (α : Type) (s : EmitterState α) (et : Option String) (lim : Option Nat),
        get_event_history s et (some 0) lim = get_event_history s et none lim)
    ∧ (∀ (α : Type) (s : EmitterState α) (et : Option String) (st : Option ℚ),
        get_event_history s et st (some 0) = get_event_history s et st none)
    ∧ (∀ (α : Type) (s : EmitterState α),
        get_event_history s none none (some 0) = s.event_buffer)
    ∧ (∀ (α : Type) (s : EmitterState α) (ts : ℚ),
        get_event_history s none (some ts) none
          = if ts ≠ 0 then s.event_buffer.filter (fun e => decide (ts < e.timestamp))
            else s.event_buffer) := by
  refine ⟨?_, ?_, ?_, ?_⟩
  · intro α s et lim
    simp [get_event_history, truthyRat]
  · intro α s et st
    simp [get_event_history, truthyNat]
  · intro α s
    simp [get_event_history, truthyStr, truthyRat, truthyNat]
  · intro α s ts
    by_cases hts : ts = 0
    · subst hts
      simp [get_event_history, truthyStr, truthyRat, truthyNat]
    · simp [get_event_history, truthyStr, truthyRat, truthyNat, hts]

/-! ## InterruptionHandler (`core/processors/interruption.py`)

Frames: the handler inspects `SystemFrame`s by `name` (with an optional
`duration` entry in their payload, read as `frame.data.get("duration", 0)`)
and `TextFrame`s travelling downstream.  The observable effect of
`_handle_interruption` — the `{completion_ratio, preserve_context,
elapsed_ms}` payload it computes (and emits via the event callback and the
injected context marker) — is returned as an `InterruptionResult`. -/

inductive FrameDirection where
  | downstream
  | upstream
deriving Repr, DecidableEq

inductive SFrame where
  | system (name : String) (duration : Option ℚ)
  | text (content : String)
deriving Repr

structure InterruptionResult where
  completion_ratio : ℚ
  preserve_context : Bool
  elapsed_ms : ℚ
deriving Repr

/-- State of one `InterruptionHandler` (`threshold`, `ack_delay` are the
constructor arguments; the rest is the mutable TTS-tracking state).
`response_tokens` approximates Python's `len(text.split())` by splitting on
single blanks; no claim depends on it. -/
structure IState where
  threshold : ℚ
  ack_delay : ℚ
  tts_active : Bool
  tts_start_time : Option ℚ
  tts_duration : Option ℚ
  current_response : String
  response_tokens : Nat

def initInterruption (threshold ack_delay : ℚ) : IState :=
  ⟨threshold, ack_delay, false, none, none, "", 0⟩

/-- `InterruptionHandler._handle_interruption`: `if not self.tts_start_time or
not self.tts_duration: completion_ratio = 0` (Python truthiness: `None` and
`0` are both false), else `elapsed / duration` when `duration > 0`, else `0`;
`preserve_context = completion_ratio < self.threshold` (strict).
`elapsed_ms` reproduces `(time.time() - self.tts_start_time) * 1000`; the
`getD 0` stands for a start time that is present in every state where
`tts_active` was set by a `tts_started` frame. -/
def handleInterruption (s : IState) (now : ℚ) : InterruptionResult :=
  let completion_ratio : ℚ :=
    if truthyRat s.tts_start_time && truthyRat s.tts_duration then
      (if 0 < s.tts_duration.getD 0 then (now - s.tts_start_time.getD 0) / s.tts_duration.getD 0
       else 0)
    else 0
  { completion_ratio := completion_ratio,
    preserve_context := decide (completion_ratio < s.threshold),
    elapsed_ms := (now - s.tts_start_time.getD 0) * 1000 }

/-- `InterruptionHandler.process_frame`: track TTS state from `tts_started` /
`tts_stopped` markers, run `_handle_interruption` on `user_started_speaking`
while TTS is active, and record downstream text. -/
def iProcessFrame (s : IState) (f : SFrame) (dir : FrameDirection) (now : ℚ) :
    IState × Option InterruptionResult :=
  match f with
  | SFrame.system name dur =>
    if name = "tts_started" then
      ({ s with tts_active := true, tts_start_time := some now,
                tts_duration := some (dur.getD 0) }, none)
    else if name = "tts_stopped" then
      ({ s with tts_active := false }, none)
    else if name = "user_started_speaking" ∧ s.tts_active = true then
      (s, some (handleInterruption s now))
    else (s, none)
  | SFrame.text content =>
    if dir = FrameDirection.downstream then
      ({ s with current_response := content,
                response_tokens := (content.splitOn " ").length }, none)
    else (s, none)

/-- Completion ratio exactly as claim C2 words it: `elapsed / expected
duration` when the TTS start time and expected duration are known (present)
and the duration is positive, and `0` otherwise. -/
def claimedCompletionRatio (tts_start_time tts_duration : Option ℚ) (now : ℚ) : ℚ :=
  match tts_start_time, tts_duration with
  | some st, some d => if 0 < d then (now - st) / d else 0
  | _, _ => 0

/-- Completion ratio as the code actually computes it (the amended claim):
like `claimedCompletionRatio`, but a start time or duration equal to `0` is
treated as unknown (Python truthiness), forcing the ratio to `0`. -/
def codeCompletionRatio (tts_start_time tts_duration : Option ℚ) (now : ℚ) : ℚ :=
  match tts_start_time, tts_duration with
  | some st, some d => if st ≠ 0 ∧ 0 < d then (now - st) / d else 0
  | _, _ => 0

theorem handleInterruption_ratio (s : IState) (now : ℚ) :
    (handleInterruption s now).completion_ratio
      = codeCompletionRatio s.tts_start_time s.tts_duration now := by
  unfold handleInterruption codeCompletionRatio
  cases hst : s.tts_start_time with
  | none => simp [truthyRat]
  | some st =>
    cases hd : s.tts_duration with
    | none => simp [truthyRat]
    | some d =>
      by_cases h1 : st = 0
      · simp [truthyRat, h1]
      · by_cases h2 : 0 < d
        · simp [truthyRat, h1, h2, ne_of_gt h2]
        · by_cases h3 : d = 0
          · simp [truthyRat, h1, h2, h3]
          · simp [truthyRat, h1, h2, h3]

theorem handleInterruption_preserve_def (s : IState) (now : ℚ) :
    (handleInterruption s now).preserve_context
      = decide ((handleInterruption s now).completion_ratio < s.threshold) := rfl

/-- Claim C2 counterexample: a `tts_started` marker at clock reading `0`
(start time `0`, a known value) with expected duration `10` and threshold
`1/5`, followed by `user_started_speaking` at clock `5`.  The claim's ratio
formula gives `5/10 = 1/2`, which is not `< 1/5`, so the claim demands
`preserve_context = False`; the code's Python-truthiness test treats the zero
start time as unknown, computes ratio `0`, and yields
`preserve_context = True`. -/
theorem interruption_zero_start_counterexample :
    ((iProcessFrame ((iProcessFrame (initInterruption (1/5) (1/20))
        (SFrame.system "tts_started" (some 10)) FrameDirection.downstream 0).1)
        (SFrame.system "user_started_speaking" none) FrameDirection.downstream 5).2.map
        (fun r => r.preserve_context)) = some true
    ∧ claimedCompletionRatio (some 0) (some 10) 5 = 1/2
    ∧ ¬ ((1 : ℚ)/2 < 1/5) := by
  refine ⟨?_, ?_, by norm_num⟩
  · norm_num [iProcessFrame, initInterruption, handleInterruption, truthyRat,
      (by decide : ¬ ("user_started_speaking" = "tts_started")),
      (by decide : ¬ ("user_started_speaking" = "tts_stopped"))]
  · norm_num [claimedCompletionRatio]

/-- Claim C2 (amended): when `user_started_speaking` arrives while TTS is
active, `preserve_context` is true iff `completion_ratio < threshold`
(strict), where the ratio is `elapsed / expected duration` when the start
time and expected duration are known **and nonzero** (Python truthiness) and
the duration is positive, and `0` otherwise.  With duration 10s and threshold
0.2 (start time 100): interruption at elapsed 1s preserves context, at 5s it
does not, and at exactly 2s (ratio 0.2, the boundary) it does not. -/
theorem interruption_threshold_boundary :
    (∀ (s : IState) (now : ℚ), s.tts_active = true →
        iProcessFrame s (SFrame.system "user_started_speaking" none)
            FrameDirection.downstream now = (s, some (handleInterruption s now))
        ∧ ((handleInterruption s now).preserve_context = true
            ↔ codeCompletionRatio s.tts_start_time s.tts_duration now < s.threshold))
    ∧ ((iProcessFrame ((iProcessFrame (initInterruption (1/5) (1/20))
        (SFrame.system "tts_started" (some 10)) FrameDirection.downstream 100).1)
        (SFrame.system "user_started_speaking" none) FrameDirection.downstream 101).2.map
        (fun r => r.preserve_context)) = some true
    ∧ ((iProcessFrame ((iProcessFrame (initInterruption (1/5) (1/20))
        (SFrame.system "tts_started" (some 10)) FrameDirection.downstream 100).1)
        (SFrame.system "user_started_speaking" none) FrameDirection.downstream 105).2.map
        (fun r => r.preserve_context)) = some false
    ∧ ((iProcessFrame ((iProcessFrame (initInterruption (1/5) (1/20))
        (SFrame.system "tts_started" (some 10)) FrameDirection.downstream 100).1)
        (SFrame.system "user_started_speaking" none) FrameDirection.downstream 102).2.map
        (fun r => r.preserve_context)) = some false := by
  refine ⟨?_, ?_, ?_, ?_⟩
  · intro s now h
    refine ⟨by simp [iProcessFrame, h], ?_⟩
    simp [handleInterruption_preserve_def, handleInterruption_ratio]
  · norm_num [iProcessFrame, initInterruption, handleInterruption, truthyRat,
      (by decide : ¬ ("user_started_speaking" = "tts_started")),
      (by decide : ¬ ("user_started_speaking" = "tts_stopped"))]
  · norm_num [iProcessFrame, initInterruption, handleInterruption, truthyRat,
      (by decide : ¬ ("user_started_speaking" = "tts_started")),
      (by decide : ¬ ("user_started_speaking" = "tts_stopped"))]
  · norm_num [iProcessFrame, initInterruption, handleInterruption, truthyRat,
      (by decide : ¬ ("user_started_speaking" = "tts_started")),
      (by decide : ¬ ("user_started_speaking" = "tts_stopped"))]

/-- Witness for the amended C2 theorem: the state reached after a
`tts_started` marker at clock 100 with duration 10, interruption at 101. -/
theorem interruption_threshold_boundary_witness :
    iProcessFrame ⟨1/5, 1/20, true, some 100, some 10, "", 0⟩
        (SFrame.system "user_started_speaking" none) FrameDirection.downstream 101
      = (⟨1/5, 1/20, true, some 100, some 10, "", 0⟩,
          some (handleInterruption ⟨1/5, 1/20, true, some 100, some 10, "", 0⟩ 101))
    ∧ ((handleInterruption ⟨1/5, 1/20, true, some 100, some 10, "", 0⟩ 101).preserve_context = true
        ↔ codeCompletionRatio (some 100) (some 10) 101 < 1/5) :=
  interruption_threshold_boundary.1 ⟨1/5, 1/20, true, some 100, some 10, "", 0⟩ 101 rfl

/-! ## MetricsCollector (`core/processors/interruption.py`, metrics part)

Dicts keyed by component name are association lists with dict semantics:
assignment updates an existing key in place or appends a new one. -/

def setAssoc (l : List (String × ℚ)) (k : String) (v : ℚ) : List (String × ℚ) :=
  match l with
  | [] => [(k, v)]
  | (k', v') :: rest => if k' == k then (k, v) :: rest else (k', v') :: setAssoc rest k v

/-- The `PipelineMetrics` dataclass. -/
structure PipelineMetrics where
  stt_latency : ℚ
  llm_latency : ℚ
  tts_latency : ℚ
  total_latency : ℚ
  frames_processed : Nat
  errors : Nat
  component_timings : List (String × ℚ)
deriving Repr

def initPipelineMetrics : PipelineMetrics := ⟨0, 0, 0, 0, 0, 0, []⟩

/-- State of one `MetricsCollector`. -/
structure MetricsState where
  emit_interval : ℚ
  metrics : PipelineMetrics
  component_starts : List (String × ℚ)
  last_emit_time : ℚ

/-- `MetricsCollector.__init__` (`last_emit_time` is the clock at
construction). -/
def initMetricsState (emit_interval now : ℚ) : MetricsState :=
  ⟨emit_interval, initPipelineMetrics, [], now⟩

/-- The `metrics_data` dict built by `MetricsCollector._emit_metrics`. -/
structure MetricsSnapshot where
  stt_latency_ms : ℚ
  llm_latency_ms : ℚ
  tts_latency_ms : ℚ
  total_latency_ms : ℚ
  frames_processed : Nat
  errors : Nat
  component_timings : List (String × ℚ)
deriving Repr

def emitMetricsData (m : PipelineMetrics) : MetricsSnapshot :=
  ⟨m.stt_latency, m.llm_latency, m.tts_latency, m.total_latency,
   m.frames_processed, m.errors, m.component_timings⟩

/-- `MetricsCollector.process_frame`: count the frame; on a
`<component>_start` marker record the start time, on a `<component>_end`
marker with an open start compute `latency = (now - start) * 1000`, store it
in `component_timings` and the named slot, and recompute `total_latency` as
the sum of the three named slots; on `error` bump the error counter.
Finally, when `emit_interval` has elapsed since the last emission, emit a
snapshot of the metrics.  (Python produces the component name with
`name.replace("_start", "")`; for names containing the suffix once, as all
component markers do, this is dropping the suffix.) -/
def mcProcessFrame (s : MetricsState) (f : SFrame) (now : ℚ) :
    MetricsState × Option MetricsSnapshot :=
  let m0 := { s.metrics with frames_processed := s.metrics.frames_processed + 1 }
  let step : PipelineMetrics × List (String × ℚ) :=
    match f with
    | SFrame.system name _ =>
      if strEndsWith name "_start" then
        (m0, setAssoc s.component_starts (strDropRight name 6) now)
      else if strEndsWith name "_end" then
        let component := strDropRight name 4
        match s.component_starts.lookup component with
        | some st =>
          let latency := (now - st) * 1000
          let m2 := { m0 with component_timings := setAssoc m0.component_timings component latency }
          let m3 :=
            if component == "stt" then { m2 with stt_latency := latency }
            else if component == "llm" then { m2 with llm_latency := latency }
            else if component == "tts" then { m2 with tts_latency := latency }
            else m2
          ({ m3 with total_latency := m3.stt_latency + m3.llm_latency + m3.tts_latency },
           s.component_starts)
        | none => (m0, s.component_starts)
      else if name == "error" then
        ({ m0 with errors := m0.errors + 1 }, s.component_starts)
      else (m0, s.component_starts)
    | SFrame.text _ => (m0, s.component_starts)
  if s.emit_interval ≤ now - s.last_emit_time then
    (⟨s.emit_interval, step.1, step.2, now⟩, some (emitMetricsData step.1))
  else (⟨s.emit_interval, step.1, step.2, s.last_emit_time⟩, none)

/-- Run the collector over a frame sequence, gathering emitted snapshots. -/
def mcRun (s : MetricsState) : List (SFrame × ℚ) → MetricsState × List MetricsSnapshot
  | [] => (s, [])
  | (f, t) :: rest =>
    let step := mcProcessFrame s f t
    let tail := mcRun step.1 rest
    (tail.1, (step.2.map (fun snap => [snap])).getD [] ++ tail.2)

theorem mcProcessFrame_total (s : MetricsState) (f : SFrame) (now : ℚ)
    (h : s.metrics.total_latency
        = s.metrics.stt_latency + s.metrics.llm_latency + s.metrics.tts_latency) :
    ((mcProcessFrame s f now).1.metrics.total_latency
        = (mcProcessFrame s f now).1.metrics.stt_latency
          + (mcProcessFrame s f now).1.metrics.llm_latency
          + (mcProcessFrame s f now).1.metrics.tts_latency)
    ∧ (∀ snap, (mcProcessFrame s f now).2 = some snap →
        snap.total_latency_ms
          = snap.stt_latency_ms + snap.llm_latency_ms + snap.tts_latency_ms) := by
  unfold mcProcessFrame
  cases f <;> dsimp only <;> repeat' split
  all_goals simp_all [emitMetricsData]

theorem mcRun_total (frames : List (SFrame × ℚ)) (s : MetricsState)
    (h : s.metrics.total_latency
        = s.metrics.stt_latency + s.metrics.llm_latency + s.metrics.tts_latency) :
    ((mcRun s frames).2.map (fun sn => sn.total_latency_ms))
      = ((mcRun s frames).2.map
          (fun sn => sn.stt_latency_ms + sn.llm_latency_ms + sn.tts_latency_ms)) := by
  induction frames generalizing s with
  | nil => rfl
  | cons ft rest ih =>
    obtain ⟨f, t⟩ := ft
    obtain ⟨hstate, hsnap⟩ := mcProcessFrame_total s f t h
    cases hout : (mcProcessFrame s f t).2 with
    | none => simp [mcRun, hout, ih _ hstate]
    | some snap =>
      have hs := hsnap snap hout
      simp [mcRun, hout, hs, ih _ hstate]

/-- Claim C9: every metrics snapshot the collector emits satisfies
`total_latency_ms = stt_latency_ms + llm_latency_ms + tts_latency_ms` (unset
slots are their initial `0`), and in the concrete run whose matched
start/end marker pairs record stt = 100 ms, llm = 200 ms and tts = 50 ms,
the final emitted snapshot carries `total_latency_ms = 350`. -/
theorem metrics_total_is_sum :
    (∀ (ei t0 : ℚ) (frames : List (SFrame × ℚ)),
        ((mcRun (initMetricsState ei t0) frames).2.map (fun sn => sn.total_latency_ms))
          = ((mcRun (initMetricsState ei t0) frames).2.map
              (fun sn => sn.stt_latency_ms + sn.llm_latency_ms + sn.tts_latency_ms)))
    ∧ ((mcRun (initMetricsState 0 0)
        [(SFrame.system "stt_start" none, 0), (SFrame.system "stt_end" none, 1/10),
         (SFrame.system "llm_start" none, 1), (SFrame.system "llm_end" none, 6/5),
         (SFrame.system "tts_start" none, 2), (SFrame.system "tts_end" none, 41/20)]).2.getLast?).map
        (fun sn => (sn.stt_latency_ms, sn.llm_latency_ms, sn.tts_latency_ms, sn.total_latency_ms))
      = some (100, 200, 50, 350) := by
  constructor
  · intro ei t0 frames
    exact mcRun_total frames (initMetricsState ei t0)
      (by norm_num [initMetricsState, initPipelineMetrics])
  · norm_num [mcRun, mcProcessFrame, initMetricsState, initPipelineMetrics,
      emitMetricsData, setAssoc, List.lookup,
      (by decide : strEndsWith "stt_start" "_start" = true),
      (by decide : strEndsWith "llm_start" "_start" = true),
      (by decide : strEndsWith "tts_start" "_start" = true),
      (by decide : strEndsWith "stt_end" "_start" = false),
      (by decide : strEndsWith "llm_end" "_start" = false),
      (by decide : strEndsWith "tts_end" "_start" = false),
      (by decide : strEndsWith "stt_end" "_end" = true),
      (by decide : strEndsWith "llm_end" "_end" = true),
      (by decide : strEndsWith "tts_end" "_end" = true),
      (by decide : strDropRight "stt_start" 6 = "stt"),
      (by decide : strDropRight "llm_start" 6 = "llm"),
      (by decide : strDropRight "tts_start" 6 = "tts"),
      (by decide : strDropRight "stt_end" 4 = "stt"),
      (by decide : strDropRight "llm_end" 4 = "llm"),
      (by decide : strDropRight "tts_end" 4 = "tts"),
      (by decide : (("stt" : String) == "stt") = true),
      (by decide : (("stt" : String) == "llm") = false),
      (by decide : (("stt" : String) == "tts") = false),
      (by decide : (("llm" : String) == "stt") = false),
      (by decide : (("llm" : String) == "llm") = true),
      (by decide : (("llm" : String) == "tts") = false),
      (by decide : (("tts" : String) == "stt") = false),
      (by decide : (("tts" : String) == "llm") = false),
      (by decide : (("tts" : String) == "tts") = true)]

/-! ## Extension points (`core/pipeline/extension_points.py`)

A handler coroutine is modelled by its observable behaviour on each context:
it either completes with a new context, raises an exception, or fails to
complete within its configured timeout (`asyncio.wait_for` raising
`asyncio.TimeoutError`). -/

inductive HandlerOutcome (Ctx : Type) where
  | ok (newContext : Ctx)
  | raises
  | timesOut

/-- The `ExtensionHandler` wrapper: behaviour plus metadata. -/
structure ExtensionHandler (Ctx : Type) where
  handler : Ctx → HandlerOutcome Ctx
  module_name : String
  priority : Int
  timeout : Option ℚ
  enabled : Bool

/-- `ExtensionHandler.execute`: a disabled handler returns the context
untouched; otherwise the handler runs under `try: … except
asyncio.TimeoutError: return context; except Exception: return context`, so
both failure modes fall back to the original, unmodified context. -/
def ExtensionHandler.execute {Ctx : Type} (h : ExtensionHandler Ctx) (context : Ctx) : Ctx :=
  if h.enabled = false then context
  else
    match h.handler context with
    | HandlerOutcome.ok c => c
    | HandlerOutcome.raises => context
    | HandlerOutcome.timesOut => context

/-- `ExtensionManager.execute_hooks`: the sequential reducer chain over the
handler list of one extension point (kept sorted by priority at registration
time). -/
def execute_hooks {Ctx : Type} (handlers : List (ExtensionHandler Ctx)) (context : Ctx) : Ctx :=
  handlers.foldl (fun c h => h.execute c) context

/-- Claim C6: a handler that raises or exceeds its timeout is fail-open — the
context it received flows unchanged to the next handler, and the remaining
handlers for the extension point still run.  `execute_hooks hs1 ctx` is the
context reaching the failing handler `h`; the whole chain then equals the
remaining chain `hs2` run on that same context. -/
theorem handler_failure_fail_open {Ctx : Type} (hs1 : List (ExtensionHandler Ctx))
    (h : ExtensionHandler Ctx) (hs2 : List (ExtensionHandler Ctx)) (ctx : Ctx)
    (hfail : h.handler (execute_hooks hs1 ctx) = HandlerOutcome.raises
      ∨ h.handler (execute_hooks hs1 ctx) = HandlerOutcome.timesOut) :
    execute_hooks (hs1 ++ h :: hs2) ctx = execute_hooks hs2 (execute_hooks hs1 ctx) := by
  have happ : execute_hooks (hs1 ++ h :: hs2) ctx
      = execute_hooks (h :: hs2) (execute_hooks hs1 ctx) := by
    unfold execute_hooks
    rw [List.foldl_append]
  rw [happ]
  show execute_hooks hs2 (h.execute (execute_hooks hs1 ctx)) = _
  have hexec : h.execute (execute_hooks hs1 ctx) = execute_hooks hs1 ctx := by
    unfold ExtensionHandler.execute
    rcases hfail with hf | hf <;> rw [hf] <;> split <;> rfl
  rw [hexec]

/-- Witness for C6: a two-handler chain on `Ctx = Nat` where the middle
handler always raises; the successor handler (adding 10) still runs on the
context produced before the failure. -/
theorem handler_failure_fail_open_witness :
    execute_hooks
        [⟨fun c => HandlerOutcome.ok (c + 1), "inc", 10, none, true⟩,
         ⟨fun _ => HandlerOutcome.raises, "bad", 20, some 1, true⟩,
         ⟨fun c => HandlerOutcome.ok (c + 10), "add", 30, none, true⟩] (0 : Nat)
      = execute_hooks [⟨fun c => HandlerOutcome.ok (c + 10), "add", 30, none, true⟩]
          (execute_hooks [⟨fun c => HandlerOutcome.ok (c + 1), "inc", 10, none, true⟩] 0) :=
  handler_failure_fail_open
    [⟨fun c => HandlerOutcome.ok (c + 1), "inc", 10, none, true⟩]
    ⟨fun _ => HandlerOutcome.raises, "bad", 20, some 1, true⟩
    [⟨fun c => HandlerOutcome.ok (c + 10), "add", 30, none, true⟩] 0 (Or.inl rfl)

/-! ## ModuleRegistry.get_load_order (`core/modules/registry.py`)

The registry is reduced to what `get_load_order` reads: for each registered
module name its `dependencies` list.  The Python recursion

```
def visit(node, path=None):
    if node in path: raise ValueError(...)
    if node not in visited:
        visited.add(node); path.add(node)
        for dep in graph.get(node, []):
            if dep in module_names: visit(dep, path)
        path.remove(node); stack.append(node)
```

is embedded with an explicit fuel argument so the definition is structural
(and therefore executable by the kernel); `get_load_order` supplies
`module_names.length + 1` fuel, which `visit_enough_fuel` below proves is
always sufficient, so the `none` (out of fuel) result never occurs.
`some (Except.error e)` is the `ValueError` naming the cycle node `e`;
`some (Except.ok st)` is normal completion. -/

/-- Registered modules: name ↦ dependencies. -/
abbrev Registry := List (String × List String)

/-- The `graph` dict built at the top of `get_load_order`: only requested
names that are actually registered get an entry. -/
def buildGraph (registered : Registry) (module_names : List String) : Registry :=
  module_names.filterMap (fun name => (registered.lookup name).map (fun deps => (name, deps)))

/-- `graph.get(node, [])`. -/
def depsOf (graph : Registry) (node : String) : List String :=
  (graph.lookup node).getD []

/-- The two mutable accumulators of the Python closure. -/
structure DfsState where
  visited : List String
  stack : List String
deriving Repr

/-- The `for dep in graph.get(node, []): if dep in module_names: visit(dep, path)`
loop, parametrised by the visit function for the current fuel level. -/
def runDeps (visitF : String → List String → DfsState → Option (Except String DfsState))
    (module_names : List String) :
    List String → List String → DfsState → Option (Except String DfsState)
  | [], _, s => some (Except.ok s)
  | dep :: rest, path, s =>
    if dep ∈ module_names then
      match visitF dep path s with
      | none => none
      | some (Except.error e) => some (Except.error e)
      | some (Except.ok s1) => runDeps visitF module_names rest path s1
    else runDeps visitF module_names rest path s

/-- The recursive `visit(node, path)`. -/
def visit (fuel : Nat) (graph : Registry) (module_names : List String) :
    String → List String → DfsState → Option (Except String DfsState) :=
  match fuel with
  | 0 => fun _ _ _ => none
  | fuel + 1 => fun node path s =>
    if node ∈ path then some (Except.error node)
    else if node ∈ s.visited then some (Except.ok s)
    else
      match runDeps (visit fuel graph module_names) module_names
          (depsOf graph node) (node :: path) ⟨node :: s.visited, s.stack⟩ with
      | none => none
      | some (Except.error e) => some (Except.error e)
      | some (Except.ok s2) => some (Except.ok ⟨s2.visited, s2.stack ++ [node]⟩)

/-- The top-level `for name in module_names: if name not in visited: visit(name)`. -/
def topLoop (fuel : Nat) (graph : Registry) (module_names : List String) :
    List String → DfsState → Option (Except String DfsState)
  | [], s => some (Except.ok s)
  | name :: rest, s =>
    if name ∈ s.visited then topLoop fuel graph module_names rest s
    else
      match visit fuel graph module_names name [] s with
      | none => none
      | some (Except.error e) => some (Except.error e)
      | some (Except.ok s1) => topLoop fuel graph module_names rest s1

/-- `ModuleRegistry.get_load_order`. -/
def get_load_order (registered : Registry) (module_names : List String) :
    Option (Except String (List String)) :=
  let graph := buildGraph registered module_names
  match topLoop (module_names.length + 1) graph module_names module_names ⟨[], []⟩ with
  | none => none
  | some (Except.error e) => some (Except.error e)
  | some (Except.ok s) => some (Except.ok s.stack)

/-- Direct dependency relation of the graph restricted to the requested set:
`DepRel g names a b` says the requested module `a` names the requested module
`b` among its dependencies. -/
def DepRel (graph : Registry) (module_names : List String) (a b : String) : Prop :=
  a ∈ module_names ∧ b ∈ module_names ∧ b ∈ depsOf graph a

/-- Stacks the DFS can build: each appended node has all its requested
dependencies already present. -/
inductive GoodStack (graph : Registry) (module_names : List String) : List String → Prop where
  | nil : GoodStack graph module_names []
  | snoc (st : List String) (n : String) : GoodStack graph module_names st →
      (∀ d, d ∈ depsOf graph n → d ∈ module_names → d ∈ st) →
      GoodStack graph module_names (st ++ [n])

/-- Invariant tying the two accumulators to the current DFS path: `visited` is
exactly the union of the finished nodes (`stack`) and the in-progress ones
(`path`); the stack is dependency-closed, duplicate-free, within the requested
set, and disjoint from the path. -/
def DfsInv (graph : Registry) (module_names : List String) (path : List String)
    (s : DfsState) : Prop :=
  (∀ x, x ∈ s.visited ↔ (x ∈ s.stack ∨ x ∈ path))
  ∧ GoodStack graph module_names s.stack
  ∧ s.stack.Nodup
  ∧ (∀ x, x ∈ s.stack → x ∈ module_names)
  ∧ (∀ x, x ∈ s.stack → x ∉ path)

/-- Prefix order on stacks (the DFS only ever appends). -/
def StackPref (a b : List String) : Prop := ∃ t, a ++ t = b

theorem StackPref.rfl (a : List String) : StackPref a a := ⟨[], List.append_nil a⟩

theorem StackPref.trans {a b c : List String} (h1 : StackPref a b) (h2 : StackPref b c) :
    StackPref a c := by
  obtain ⟨t1, ht1⟩ := h1
  obtain ⟨t2, ht2⟩ := h2
  exact ⟨t1 ++ t2, by rw [← List.append_assoc, ht1, ht2]⟩

theorem StackPref.mem {a b : List String} (h : StackPref a b) {x : String} (hx : x ∈ a) :
    x ∈ b := by
  obtain ⟨t, ht⟩ := h
  rw [← ht]
  exact List.mem_append_left t hx

theorem runDeps_ok (graph : Registry) (module_names : List String)
    (visitF : String → List String → DfsState → Option (Except String DfsState))
    (hvf : ∀ node path s s', visitF node path s = some (Except.ok s') →
        node ∈ module_names → DfsInv graph module_names path s →
        DfsInv graph module_names path s' ∧ StackPref s.stack s'.stack
          ∧ (∀ x, x ∈ s.visited → x ∈ s'.visited) ∧ node ∈ s'.stack) :
    ∀ (deps path : List String) (s s' : DfsState),
      runDeps visitF module_names deps path s = some (Except.ok s') →
      DfsInv graph module_names path s →
      DfsInv graph module_names path s' ∧ StackPref s.stack s'.stack
        ∧ (∀ x, x ∈ s.visited → x ∈ s'.visited)
        ∧ (∀ d, d ∈ deps → d ∈ module_names → d ∈ s'.stack) := by
  intro deps
  induction deps with
  | nil =>
    intro path s s' h hinv
    simp only [runDeps, Option.some.injEq, Except.ok.injEq] at h
    subst h
    exact ⟨hinv, StackPref.rfl _, fun x hx => hx, by simp⟩
  | cons d rest ihd =>
    intro path s s' h hinv
    by_cases hd : d ∈ module_names
    · rw [runDeps, if_pos hd] at h
      cases hv : visitF d path s with
      | none => rw [hv] at h; exact absurd h (by simp)
      | some r =>
        cases r with
        | error e => rw [hv] at h; exact absurd h (by simp)
        | ok s1 =>
          rw [hv] at h
          obtain ⟨hinv1, hpref1, hmono1, hdstack⟩ := hvf d path s s1 hv hd hinv
          obtain ⟨hinv2, hpref2, hmono2, hrest⟩ := ihd path s1 s' h hinv1
          refine ⟨hinv2, hpref1.trans hpref2, fun x hx => hmono2 x (hmono1 x hx), ?_⟩
          intro d' hd' hd'n
          rcases List.mem_cons.mp hd' with rfl | hmem
          · exact hpref2.mem hdstack
          · exact hrest d' hmem hd'n
    · rw [runDeps, if_neg hd] at h
      obtain ⟨hinv2, hpref2, hmono2, hrest⟩ := ihd path s s' h hinv
      refine ⟨hinv2, hpref2, hmono2, ?_⟩
      intro d' hd' hd'n
      rcases List.mem_cons.mp hd' with rfl | hmem
      · exact absurd hd'n hd
      · exact hrest d' hmem hd'n

theorem visit_ok (graph : Registry) (module_names : List String) :
    ∀ (fuel : Nat) (node : String) (path : List String) (s s' : DfsState),
      visit fuel graph module_names node path s = some (Except.ok s') →
      node ∈ module_names →
      DfsInv graph module_names path s →
      DfsInv graph module_names path s' ∧ StackPref s.stack s'.stack
        ∧ (∀ x, x ∈ s.visited → x ∈ s'.visited) ∧ node ∈ s'.stack := by
  intro fuel
  induction fuel with
  | zero =>
    intro node path s s' h
    exact absurd h (by simp [visit])
  | succ fuel ih =>
    intro node path s s' h hnode hinv
    obtain ⟨hiff, hgood, hnd, hsub, hdisj⟩ := hinv
    rw [visit] at h
    beta_reduce at h
    by_cases hp : node ∈ path
    · rw [if_pos hp] at h
      exact absurd h (by simp)
    · rw [if_neg hp] at h
      by_cases hv : node ∈ s.visited
      · rw [if_pos hv] at h
        simp only [Option.some.injEq, Except.ok.injEq] at h
        subst h
        have hstack : node ∈ s.stack := by
          rcases (hiff node).mp hv with hst | hpth
          · exact hst
          · exact absurd hpth hp
        exact ⟨⟨hiff, hgood, hnd, hsub, hdisj⟩, StackPref.rfl _, fun x hx => hx, hstack⟩
      · rw [if_neg hv] at h
        have hinv1 : DfsInv graph module_names (node :: path) ⟨node :: s.visited, s.stack⟩ := by
          refine ⟨?_, hgood, hnd, hsub, ?_⟩
          · intro x
            simp only [List.mem_cons]
            rw [hiff x]
            tauto
          · intro x hx
            simp only [List.mem_cons]
            push_neg
            refine ⟨?_, hdisj x hx⟩
            intro hcon
            subst hcon
            exact hv ((hiff x).mpr (Or.inl hx))
        cases hrd : runDeps (visit fuel graph module_names) module_names
            (depsOf graph node) (node :: path) ⟨node :: s.visited, s.stack⟩ with
        | none => rw [hrd] at h; exact absurd h (by simp)
        | some r =>
          cases r with
          | error e => rw [hrd] at h; exact absurd h (by simp)
          | ok s2 =>
            rw [hrd] at h
            simp only [Option.some.injEq, Except.ok.injEq] at h
            obtain ⟨hinv2, hpref2, hmono2, hdeps⟩ :=
              runDeps_ok graph module_names (visit fuel graph module_names)
                (fun n p a b hab hn hia => ih n p a b hab hn hia)
                (depsOf graph node) (node :: path) ⟨node :: s.visited, s.stack⟩ s2 hrd hinv1
            obtain ⟨hiff2, hgood2, hnd2, hsub2, hdisj2⟩ := hinv2
            have hnode2 : node ∉ s2.stack :=
              fun hc => hdisj2 node hc (List.mem_cons_self node path)
            subst h
            refine ⟨⟨?_, ?_, ?_, ?_, ?_⟩, ?_, ?_, ?_⟩
            · intro x
              show x ∈ s2.visited ↔ x ∈ s2.stack ++ [node] ∨ x ∈ path
              rw [hiff2 x]
              simp only [List.mem_append, List.mem_cons, List.mem_singleton]
              tauto
            · exact GoodStack.snoc s2.stack node hgood2 (fun d hd hdn => hdeps d hd hdn)
            · show (s2.stack ++ [node]).Nodup
              rw [List.nodup_append]
              refine ⟨hnd2, List.nodup_singleton node, ?_⟩
              intro x hx hx'
              rw [List.mem_singleton] at hx'
              subst hx'
              exact hnode2 hx
            · intro x hx
              rcases List.mem_append.mp hx with h1 | h1
              · exact hsub2 x h1
              · rw [List.mem_singleton] at h1
                subst h1
                exact hnode
            · intro x hx
              rcases List.mem_append.mp hx with h1 | h1
              · intro hcon
                exact hdisj2 x h1 (List.mem_cons_of_mem node hcon)
              · rw [List.mem_singleton] at h1
                subst h1
                exact hp
            · exact StackPref.trans hpref2 ⟨[node], rfl⟩
            · intro x hx
              exact hmono2 x (List.mem_cons_of_mem node hx)
            · exact List.mem_append_right s2.stack (List.mem_singleton.mpr rfl)

theorem topLoop_ok (graph : Registry) (module_names : List String) (fuel : Nat) :
    ∀ (roots : List String) (s s' : DfsState),
      topLoop fuel graph module_names roots s = some (Except.ok s') →
      (∀ n, n ∈ roots → n ∈ module_names) →
      DfsInv graph module_names [] s →
      DfsInv graph module_names [] s' ∧ StackPref s.stack s'.stack
        ∧ (∀ x, x ∈ s.visited → x ∈ s'.visited)
        ∧ (∀ n, n ∈ roots → n ∈ s'.visited) := by
  intro roots
  induction roots with
  | nil =>
    intro s s' h hroots hinv
    simp only [topLoop, Option.some.injEq, Except.ok.injEq] at h
    subst h
    exact ⟨hinv, StackPref.rfl _, fun x hx => hx, by simp⟩
  | cons name rest ih =>
    intro s s' h hroots hinv
    have hname : name ∈ module_names := hroots name (List.mem_cons_self name rest)
    by_cases hv : name ∈ s.visited
    · rw [topLoop, if_pos hv] at h
      obtain ⟨hinv2, hpref2, hmono2, hrest⟩ :=
        ih s s' h (fun n hn => hroots n (List.mem_cons_of_mem name hn)) hinv
      refine ⟨hinv2, hpref2, hmono2, ?_⟩
      intro n hn
      rcases List.mem_cons.mp hn with rfl | hmem
      · exact hmono2 n hv
      · exact hrest n hmem
    · rw [topLoop, if_neg hv] at h
      cases hvis : visit fuel graph module_names name [] s with
      | none => rw [hvis] at h; exact absurd h (by simp)
      | some r =>
        cases r with
        | error e => rw [hvis] at h; exact absurd h (by simp)
        | ok s1 =>
          rw [hvis] at h
          obtain ⟨hinv1, hpref1, hmono1, hstack1⟩ :=
            visit_ok graph module_names fuel name [] s s1 hvis hname hinv
          obtain ⟨hinv2, hpref2, hmono2, hrest⟩ :=
            ih s1 s' h (fun n hn => hroots n (List.mem_cons_of_mem name hn)) hinv1
          refine ⟨hinv2, hpref1.trans hpref2, fun x hx => hmono2 x (hmono1 x hx), ?_⟩
          intro n hn
          rcases List.mem_cons.mp hn with rfl | hmem
          · exact hmono2 n ((hinv1.1 n).mpr (Or.inl hstack1))
          · exact hrest n hmem

/-- On success, `get_load_order` returns a duplicate-free, dependency-closed
permutation of the requested names. -/
theorem get_load_order_ok (registered : Registry) (module_names : List String)
    (order : List String)
    (h : get_load_order registered module_names = some (Except.ok order)) :
    GoodStack (buildGraph registered module_names) module_names order
    ∧ order.Nodup
    ∧ (∀ x, x ∈ order ↔ x ∈ module_names) := by
  unfold get_load_order at h
  cases htl : topLoop (module_names.length + 1) (buildGraph registered module_names)
      module_names module_names ⟨[], []⟩ with
  | none => simp [htl] at h
  | some r =>
    cases r with
    | error e => simp [htl] at h
    | ok sfin =>
      simp only [htl] at h
      simp only [Option.some.injEq, Except.ok.injEq] at h
      have hinv0 : DfsInv (buildGraph registered module_names) module_names [] ⟨[], []⟩ :=
        ⟨by simp, GoodStack.nil, List.nodup_nil, by simp, by simp⟩
      obtain ⟨hinv, _, _, hvisited⟩ :=
        topLoop_ok (buildGraph registered module_names) module_names
          (module_names.length + 1) module_names ⟨[], []⟩ sfin htl (fun n hn => hn) hinv0
      obtain ⟨hiff, hgood, hnd, hsub, _⟩ := hinv
      subst h
      refine ⟨hgood, hnd, ?_⟩
      intro x
      constructor
      · exact hsub x
      · intro hx
        rcases (hiff x).mp (hvisited x hx) with hst | hpth
        · exact hst
        · exact absurd hpth (List.not_mem_nil x)

/-- A dependency-closed stack splits: whatever stands right of a node in it
cannot be one of that node's requested dependencies — those are all to the
left. -/
theorem goodStack_split (graph : Registry) (module_names : List String) :
    ∀ (st : List String), GoodStack graph module_names st →
      ∀ (pre : List String) (n : String) (post : List String), st = pre ++ n :: post →
        ∀ d, d ∈ depsOf graph n → d ∈ module_names → d ∈ pre := by
  intro st hst
  induction hst with
  | nil =>
    intro pre n post heq
    exact absurd heq.symm (by simp)
  | snoc st' m hgood hdeps ih =>
    intro pre n post heq d hd hdn
    rcases List.eq_nil_or_concat post with rfl | ⟨post', x, rfl⟩
    · have hlen : pre.length = st'.length := by
        have := congrArg List.length heq
        simp at this
        omega
      obtain ⟨h1, h2⟩ := List.append_inj heq.symm hlen
      have hn : n = m := by
        simpa using h2
      subst hn
      rw [h1]
      exact hdeps d hd hdn
    · rw [List.concat_eq_append, ← List.cons_append, ← List.append_assoc] at heq
      have hlen : (pre ++ n :: post').length = st'.length := by
        have := congrArg List.length heq
        simp at this
        simp
        omega
      obtain ⟨h1, _⟩ := List.append_inj heq.symm hlen
      exact ih pre n post' h1.symm d hd hdn

/-- Every member of a dependency-closed stack is accessible under the
"is a requested dependency of" relation: the stack witnesses well-foundedness
on its members. -/
theorem goodStack_acc (graph : Registry) (module_names : List String) :
    ∀ (st : List String), GoodStack graph module_names st →
      ∀ a, a ∈ st → Acc (fun y x => DepRel graph module_names x y) a := by
  intro st hst
  induction hst with
  | nil => intro a ha; exact absurd ha (List.not_mem_nil a)
  | snoc st' m hgood hdeps ih =>
    intro a ha
    rcases List.mem_append.mp ha with h1 | h1
    · exact ih a h1
    · rw [List.mem_singleton] at h1
      subst h1
      refine Acc.intro a ?_
      intro y hy
      obtain ⟨_, hyn, hydep⟩ := hy
      exact ih y (hdeps y hydep hyn)

theorem acc_no_self_rel {α : Type} {r : α → α → Prop} {a : α} (h : Acc r a) : ¬ r a a := by
  induction h with
  | intro x hx ih =>
    intro hxx
    exact ih x hxx hxx

/-- A successful load order rules out any dependency cycle inside the
requested set. -/
theorem get_load_order_ok_acyclic (registered : Registry) (module_names : List String)
    (order : List String)
    (h : get_load_order registered module_names = some (Except.ok order)) :
    ¬ ∃ x, Relation.TransGen (DepRel (buildGraph registered module_names) module_names) x x := by
  obtain ⟨hgood, _, hmem⟩ := get_load_order_ok registered module_names order h
  rintro ⟨x, hx⟩
  have hxnames : x ∈ module_names := by
    cases hx with
    | single h1 => exact h1.1
    | tail _ h1 => exact h1.2.1
  have hxord : x ∈ order := (hmem x).mpr hxnames
  have hacc : Acc (fun y x => DepRel (buildGraph registered module_names) module_names x y) x :=
    goodStack_acc (buildGraph registered module_names) module_names order hgood x hxord
  have hacc' := hacc.transGen
  have hswap : Relation.TransGen
      (fun y x => DepRel (buildGraph registered module_names) module_names x y) x x := by
    have := Relation.transGen_swap
        (r := DepRel (buildGraph registered module_names) module_names) (a := x) (b := x)
    exact this.mpr hx
  exact acc_no_self_rel hacc' hswap

theorem visit_enough_fuel (graph : Registry) (module_names : List String) :
    ∀ (fuel : Nat) (node : String) (path : List String) (s : DfsState),
      node ∈ module_names → (∀ x, x ∈ path → x ∈ module_names) → path.Nodup →
      module_names.toFinset.card - path.length < fuel →
      visit fuel graph module_names node path s ≠ none := by
  intro fuel
  induction fuel with
  | zero =>
    intro node path s _ _ _ hfuel
    exact absurd hfuel (by omega)
  | succ fuel ih =>
    intro node path s hnode hpath hnd hfuel
    rw [visit]
    beta_reduce
    by_cases hp : node ∈ path
    · rw [if_pos hp]; simp
    · rw [if_neg hp]
      by_cases hv : node ∈ s.visited
      · rw [if_pos hv]; simp
      · rw [if_neg hv]
        have hpath' : ∀ x, x ∈ node :: path → x ∈ module_names := by
          intro x hx
          rcases List.mem_cons.mp hx with rfl | hmem
          · exact hnode
          · exact hpath x hmem
        have hnd' : (node :: path).Nodup := List.nodup_cons.mpr ⟨hp, hnd⟩
        have hlenle : (node :: path).length ≤ module_names.toFinset.card := by
          have h1 : (node :: path).toFinset.card = (node :: path).length :=
            List.toFinset_card_of_nodup hnd'
          have h2 : (node :: path).toFinset ⊆ module_names.toFinset := by
            intro x hx
            rw [List.mem_toFinset] at hx
            rw [List.mem_toFinset]
            exact hpath' x hx
          calc (node :: path).length = (node :: path).toFinset.card := h1.symm
            _ ≤ module_names.toFinset.card := Finset.card_le_card h2
        have hfuel' : module_names.toFinset.card - (node :: path).length < fuel := by
          simp only [List.length_cons] at hlenle ⊢
          omega
        have hrd : ∀ (deps : List String) (s1 : DfsState),
            runDeps (visit fuel graph module_names) module_names deps (node :: path) s1
              ≠ none := by
          intro deps
          induction deps with
          | nil => intro s1; simp [runDeps]
          | cons d rest ihd =>
            intro s1
            by_cases hd : d ∈ module_names
            · rw [runDeps, if_pos hd]
              cases hvis : visit fuel graph module_names d (node :: path) s1 with
              | none => exact absurd hvis (ih d (node :: path) s1 hd hpath' hnd' hfuel')
              | some r =>
                cases r with
                | error e => simp
                | ok s2 => exact ihd s2
            · rw [runDeps, if_neg hd]
              exact ihd s1
        cases hrdres : runDeps (visit fuel graph module_names) module_names
            (depsOf graph node) (node :: path) ⟨node :: s.visited, s.stack⟩ with
        | none => exact absurd hrdres (hrd (depsOf graph node) ⟨node :: s.visited, s.stack⟩)
        | some r =>
          cases r with
          | error e => simp
          | ok s2 => simp

theorem topLoop_enough_fuel (graph : Registry) (module_names : List String) (fuel : Nat) :
    ∀ (roots : List String) (s : DfsState),
      (∀ n, n ∈ roots → n ∈ module_names) →
      module_names.toFinset.card < fuel →
      topLoop fuel graph module_names roots s ≠ none := by
  intro roots
  induction roots with
  | nil => intro s _ _; simp [topLoop]
  | cons name rest ih =>
    intro s hroots hfuel
    have hname : name ∈ module_names := hroots name (List.mem_cons_self name rest)
    by_cases hv : name ∈ s.visited
    · rw [topLoop, if_pos hv]
      exact ih s (fun n hn => hroots n (List.mem_cons_of_mem name hn)) hfuel
    · rw [topLoop, if_neg hv]
      cases hvis : visit fuel graph module_names name [] s with
      | none =>
        refine absurd hvis (visit_enough_fuel graph module_names fuel name [] s hname ?_ ?_ ?_)
        · intro x hx; exact absurd hx (List.not_mem_nil x)
        · exact List.nodup_nil
        · simpa using hfuel
      | some r =>
        cases r with
        | error e => simp
        | ok s1 => exact ih s1 (fun n hn => hroots n (List.mem_cons_of_mem name hn)) hfuel

/-- The fuel `module_names.length + 1` that `get_load_order` supplies always
suffices: the embedded recursion never reports fuel exhaustion. -/
theorem get_load_order_ne_none (registered : Registry) (module_names : List String) :
    get_load_order registered module_names ≠ none := by
  unfold get_load_order
  have hfuel : module_names.toFinset.card < module_names.length + 1 := by
    have := List.toFinset_card_le module_names
    omega
  cases htl : topLoop (module_names.length + 1) (buildGraph registered module_names)
      module_names module_names ⟨[], []⟩ with
  | none =>
    exact absurd htl (topLoop_enough_fuel (buildGraph registered module_names) module_names
      (module_names.length + 1) module_names ⟨[], []⟩ (fun n hn => hn) hfuel)
  | some r =>
    simp only [htl]
    cases r with
    | error e => simp
    | ok s => simp

/-- The call-site link: when `visit node path` is invoked with a non-empty
path, `node` is one of the dependencies of the path's newest element. -/
def PathLink (graph : Registry) (path : List String) (node : String) : Prop :=
  match path with
  | [] => True
  | p :: _ => node ∈ depsOf graph p

theorem chain_to_head (graph : Registry) (module_names : List String) :
    ∀ (rest : List String) (p0 : String),
      List.Chain' (fun x y => x ∈ depsOf graph y) (p0 :: rest) →
      (∀ x, x ∈ p0 :: rest → x ∈ module_names) →
      ∀ node, node ∈ p0 :: rest →
        Relation.ReflTransGen (DepRel graph module_names) node p0 := by
  intro rest
  induction rest with
  | nil =>
    intro p0 _ _ node hnode
    have h1 : node = p0 := by simpa using hnode
    subst h1
    exact Relation.ReflTransGen.refl
  | cons p1 rest' ih =>
    intro p0 hchain hmem node hnode
    rcases List.mem_cons.mp hnode with rfl | hmem1
    · exact Relation.ReflTransGen.refl
    · obtain ⟨hlink, hchain'⟩ := List.chain'_cons.mp hchain
      have hrtg : Relation.ReflTransGen (DepRel graph module_names) node p1 :=
        ih p1 hchain' (fun x hx => hmem x (List.mem_cons_of_mem p0 hx)) node hmem1
      refine hrtg.tail ?_
      exact ⟨hmem p1 (List.mem_cons_of_mem p0 (List.mem_cons_self p1 rest')),
             hmem p0 (List.mem_cons_self p0 (p1 :: rest')), hlink⟩

theorem visit_error (graph : Registry) (module_names : List String) :
    ∀ (fuel : Nat) (node : String) (path : List String) (s : DfsState) (e : String),
      visit fuel graph module_names node path s = some (Except.error e) →
      node ∈ module_names →
      List.Chain' (fun x y => x ∈ depsOf graph y) path →
      (∀ x, x ∈ path → x ∈ module_names) →
      PathLink graph path node →
      Relation.TransGen (DepRel graph module_names) e e := by
  intro fuel
  induction fuel with
  | zero =>
    intro node path s e h
    exact absurd h (by simp [visit])
  | succ fuel ih =>
    intro node path s e h hnode hchain hpathmem hlink
    rw [visit] at h
    beta_reduce at h
    by_cases hp : node ∈ path
    · rw [if_pos hp] at h
      simp only [Option.some.injEq, Except.error.injEq] at h
      subst h
      cases path with
      | nil => exact absurd hp (List.not_mem_nil node)
      | cons p0 rest =>
        have hrtg : Relation.ReflTransGen (DepRel graph module_names) node p0 :=
          chain_to_head graph module_names rest p0 hchain hpathmem node hp
        refine Relation.TransGen.tail' hrtg ?_
        exact ⟨hpathmem p0 (List.mem_cons_self p0 rest), hnode, hlink⟩
    · rw [if_neg hp] at h
      by_cases hv : node ∈ s.visited
      · rw [if_pos hv] at h
        exact absurd h (by simp)
      · rw [if_neg hv] at h
        have hchain' : List.Chain' (fun x y => x ∈ depsOf graph y) (node :: path) := by
          cases path with
          | nil => simp
          | cons p0 rest => exact List.chain'_cons.mpr ⟨hlink, hchain⟩
        have hpathmem' : ∀ x, x ∈ node :: path → x ∈ module_names := by
          intro x hx
          rcases List.mem_cons.mp hx with rfl | hmem
          · exact hnode
          · exact hpathmem x hmem
        have hrd : ∀ (deps : List String) (s1 : DfsState),
            runDeps (visit fuel graph module_names) module_names deps (node :: path) s1
              = some (Except.error e) →
            (∀ d, d ∈ deps → d ∈ depsOf graph node) →
            Relation.TransGen (DepRel graph module_names) e e := by
          intro deps
          induction deps with
          | nil =>
            intro s1 h1
            exact absurd h1 (by simp [runDeps])
          | cons d rest ihd =>
            intro s1 h1 hdeps
            by_cases hd : d ∈ module_names
            · rw [runDeps, if_pos hd] at h1
              cases hvis : visit fuel graph module_names d (node :: path) s1 with
              | none => rw [hvis] at h1; exact absurd h1 (by simp)
              | some r =>
                rw [hvis] at h1
                cases r with
                | error e' =>
                  simp only [Option.some.injEq, Except.error.injEq] at h1
                  subst h1
                  exact ih d (node :: path) s1 e' hvis hd hchain' hpathmem'
                    (hdeps d (List.mem_cons_self d rest))
                | ok s2 =>
                  exact ihd s2 h1 (fun d' hd' => hdeps d' (List.mem_cons_of_mem d hd'))
            · rw [runDeps, if_neg hd] at h1
              exact ihd s1 h1 (fun d' hd' => hdeps d' (List.mem_cons_of_mem d hd'))
        cases hrdres : runDeps (visit fuel graph module_names) module_names
            (depsOf graph node) (node :: path) ⟨node :: s.visited, s.stack⟩ with
        | none => rw [hrdres] at h; exact absurd h (by simp)
        | some r =>
          rw [hrdres] at h
          cases r with
          | error e' =>
            simp only [Option.some.injEq, Except.error.injEq] at h
            subst h
            exact hrd (depsOf graph node) ⟨node :: s.visited, s.stack⟩ hrdres
              (fun d hd => hd)
          | ok s2 => exact absurd h (by simp)

theorem topLoop_error (graph : Registry) (module_names : List String) (fuel : Nat) :
    ∀ (roots : List String) (s : DfsState) (e : String),
      topLoop fuel graph module_names roots s = some (Except.error e) →
      (∀ n, n ∈ roots → n ∈ module_names) →
      Relation.TransGen (DepRel graph module_names) e e := by
  intro roots
  induction roots with
  | nil =>
    intro s e h
    exact absurd h (by simp [topLoop])
  | cons name rest ih =>
    intro s e h hroots
    have hname : name ∈ module_names := hroots name (List.mem_cons_self name rest)
    by_cases hv : name ∈ s.visited
    · rw [topLoop, if_pos hv] at h
      exact ih s e h (fun n hn => hroots n (List.mem_cons_of_mem name hn))
    · rw [topLoop, if_neg hv] at h
      cases hvis : visit fuel graph module_names name [] s with
      | none => rw [hvis] at h; exact absurd h (by simp)
      | some r =>
        rw [hvis] at h
        cases r with
        | error e' =>
          simp only [Option.some.injEq, Except.error.injEq] at h
          subst h
          refine visit_error graph module_names fuel name [] s e' hvis hname ?_ ?_ ?_
          · simp
          · intro x hx; exact absurd hx (List.not_mem_nil x)
          · trivial
        | ok s1 => exact ih s1 e h (fun n hn => hroots n (List.mem_cons_of_mem name hn))

/-- The node named in a circular-dependency error really lies on a dependency
cycle of the graph restricted to the requested set. -/
theorem get_load_order_error_cycle (registered : Registry) (module_names : List String)
    (e : String)
    (h : get_load_order registered module_names = some (Except.error e)) :
    Relation.TransGen (DepRel (buildGraph registered module_names) module_names) e e := by
  unfold get_load_order at h
  cases htl : topLoop (module_names.length + 1) (buildGraph registered module_names)
      module_names module_names ⟨[], []⟩ with
  | none => simp [htl] at h
  | some r =>
    cases r with
    | error e' =>
      simp only [htl, Option.some.injEq, Except.error.injEq] at h
      subst h
      exact topLoop_error (buildGraph registered module_names) module_names
        (module_names.length + 1) module_names ⟨[], []⟩ e' htl (fun n hn => hn)
    | ok sfin => simp [htl] at h

/-- Claim C4: when the dependency graph restricted to the requested names has
a cycle, `get_load_order` raises the circular-dependency error (Python: a
`ValueError` naming the node revisited while still on the DFS path) instead
of returning any load order, and the named node itself lies on a cycle. -/
theorem circular_dependency_detected (registered : Registry) (module_names : List String)
    (hcycle : ∃ x, Relation.TransGen
        (DepRel (buildGraph registered module_names) module_names) x x) :
    ∃ e, get_load_order registered module_names = some (Except.error e)
      ∧ Relation.TransGen (DepRel (buildGraph registered module_names) module_names) e e := by
  cases hres : get_load_order registered module_names with
  | none => exact absurd hres (get_load_order_ne_none registered module_names)
  | some r =>
    cases r with
    | ok order =>
      exact absurd hcycle (get_load_order_ok_acyclic registered module_names order hres)
    | error e =>
      exact ⟨e, rfl, get_load_order_error_cycle registered module_names e hres⟩

/-- Witness for C4: the spec's own example `{A: deps=[B], B: deps=[A]}`,
requested together. -/
theorem circular_dependency_detected_witness :
    ∃ e, get_load_order [("A", ["B"]), ("B", ["A"])] ["A", "B"] = some (Except.error e)
      ∧ Relation.TransGen
          (DepRel (buildGraph [("A", ["B"]), ("B", ["A"])] ["A", "B"]) ["A", "B"]) e e :=
  circular_dependency_detected [("A", ["B"]), ("B", ["A"])] ["A", "B"]
    ⟨"A", Relation.TransGen.head
      (show DepRel (buildGraph [("A", ["B"]), ("B", ["A"])] ["A", "B"]) ["A", "B"] "A" "B"
        from ⟨by decide, by decide, by decide⟩)
      (Relation.TransGen.single
        (show DepRel (buildGraph [("A", ["B"]), ("B", ["A"])] ["A", "B"]) ["A", "B"] "B" "A"
          from ⟨by decide, by decide, by decide⟩))⟩

/-- Ranked graphs are acyclic: used to discharge the acyclicity hypothesis on
concrete inputs. -/
theorem no_cycle_of_rank {r : String → String → Prop} (rank : String → Nat)
    (h : ∀ a b, r a b → rank b < rank a) : ¬ ∃ x, Relation.TransGen r x x := by
  rintro ⟨x, hx⟩
  have hlt : ∀ a b, Relation.TransGen r a b → rank b < rank a := by
    intro a b hab
    induction hab with
    | single h1 => exact h _ _ h1
    | tail _ h1 ihab => exact lt_trans (h _ _ h1) ihab
  exact absurd (hlt x x hx) (lt_irrefl _)

/-- Claim C5: on an acyclic restricted dependency graph, `get_load_order`
returns a duplicate-free ordering of exactly the requested names in which
every module appears after each of its dependencies that is also requested
(whatever stands after a module in the order is never one of its requested
dependencies — they are all in the prefix before it); in particular
`{A: deps=[], B: deps=[A], C: deps=[B]}` requested as `[C, A, B]` yields
`[A, B, C]`. -/
theorem load_order_topological :
    (∀ (registered : Registry) (module_names : List String),
      (¬ ∃ x, Relation.TransGen
          (DepRel (buildGraph registered module_names) module_names) x x) →
      ∃ order, get_load_order registered module_names = some (Except.ok order)
        ∧ order.Nodup
        ∧ (∀ x, x ∈ order ↔ x ∈ module_names)
        ∧ (∀ pre n post, order = pre ++ n :: post →
            ∀ d, d ∈ depsOf (buildGraph registered module_names) n →
              d ∈ module_names → d ∈ pre))
    ∧ get_load_order [("A", []), ("B", ["A"]), ("C", ["B"])] ["C", "A", "B"]
        = some (Except.ok ["A", "B", "C"]) := by
  constructor
  · intro registered module_names hacyc
    cases hres : get_load_order registered module_names with
    | none => exact absurd hres (get_load_order_ne_none registered module_names)
    | some r =>
      cases r with
      | error e =>
        exact absurd ⟨e, get_load_order_error_cycle registered module_names e hres⟩ hacyc
      | ok order =>
        obtain ⟨hgood, hnd, hmem⟩ := get_load_order_ok registered module_names order hres
        exact ⟨order, rfl, hnd, hmem,
          fun pre n post heq d hd hdn =>
            goodStack_split (buildGraph registered module_names) module_names order hgood
              pre n post heq d hd hdn⟩
  · rfl

/-- Witness for C5: the spec's example, with acyclicity discharged by the
rank C ↦ 2, B ↦ 1, A ↦ 0. -/
theorem load_order_topological_witness :
    ∃ order, get_load_order [("A", []), ("B", ["A"]), ("C", ["B"])] ["C", "A", "B"]
        = some (Except.ok order)
      ∧ order.Nodup
      ∧ (∀ x, x ∈ order ↔ x ∈ ["C", "A", "B"])
      ∧ (∀ pre n post, order = pre ++ n :: post →
          ∀ d, d ∈ depsOf (buildGraph [("A", []), ("B", ["A"]), ("C", ["B"])]
              ["C", "A", "B"]) n →
            d ∈ ["C", "A", "B"] → d ∈ pre) :=
  load_order_topological.1 [("A", []), ("B", ["A"]), ("C", ["B"])] ["C", "A", "B"]
    (no_cycle_of_rank (fun s => if s = "C" then 2 else if s = "B" then 1 else 0) (by
      rintro a b ⟨ha, hb, hdep⟩
      have ha' : a = "C" ∨ a = "A" ∨ a = "B" := by simpa using ha
      rcases ha' with rfl | rfl | rfl
      · rw [show depsOf (buildGraph [("A", []), ("B", ["A"]), ("C", ["B"])] ["C", "A", "B"])
            "C" = ["B"] from rfl] at hdep
        have hb' : b = "B" := by simpa using hdep
        subst hb'
        decide
      · rw [show depsOf (buildGraph [("A", []), ("B", ["A"]), ("C", ["B"])] ["C", "A", "B"])
            "A" = ([] : List String) from rfl] at hdep
        exact absurd hdep (List.not_mem_nil b)
      · rw [show depsOf (buildGraph [("A", []), ("B", ["A"]), ("C", ["B"])] ["C", "A", "B"])
            "B" = ["A"] from rfl] at hdep
        have hb' : b = "A" := by simpa using hdep
        subst hb'
        decide))
